import Mathlib

/-!
Verification of the parasol-db storage core against its design spec.

Shallow embedding of the Rust sources:
  * `src/table/vec.rs`        — `VecTable`, `VecTableIterator` (binary-search range scan)
  * `src/index/hash_map_index.rs` — `HashMapIndex` (`update`, `get_all` temporal queries)
  * `src/view/composite.rs`   — `CompositeView` (vector clock, k-way merge iterator)
  * `src/source_log/vector_log.rs` — `VectorLog` (`current_seq` convention)

`Seq` is Rust `u64`; it is modelled as `Nat`.  The one place where the
finite width of `u64` is semantically relevant is the composite merge,
which uses `Seq::MAX` as an in-band sentinel; that constant is modelled
explicitly as `SEQMAX = 2 ^ 64 - 1`.  Rust `HashMap` values are modelled
extensionally as functions `Key → Option Value`; Rust `HashSet`s whose
iteration order is irrelevant to the result are modelled as
duplicate-free lists.  Fallible operations (Rust panics) are modelled by
`Option`-returning functions.
-/

/-- Rust `u64::MAX`, the largest value of the `Seq` type (`Seq::MAX`). -/
def SEQMAX : Nat := 2 ^ 64 - 1

/-- State of `VecTable` (src/table/vec.rs lines 3-8): a current sequence
number plus parallel arrays of assigned seqs and stored events. -/
structure VecTable (E : Type) where
  current_seq : Nat
  seqs : List Nat
  events : List E
deriving Repr, DecidableEq

/-- `VecTable::new` (vec.rs lines 11-13). -/
def VecTable.new {E : Type} : VecTable E :=
  { current_seq := 0, seqs := [], events := [] }

/-- One step of `VecTable::append` (vec.rs lines 38-47): increments
`current_seq`, records it as the new event's seq.  The Rust method also
accumulates the assigned seqs into the returned `Vec`; no claim refers to
that return value, so only the state evolution is modelled. -/
def VecTable.appendOne {E : Type} (tbl : VecTable E) (e : E) : VecTable E :=
  { current_seq := tbl.current_seq + 1
    seqs := tbl.seqs ++ [tbl.current_seq + 1]
    events := tbl.events ++ [e] }

/-- `VecTable::append` over a batch of events (vec.rs lines 38-47). -/
def VecTable.appendList {E : Type} (tbl : VecTable E) (es : List E) : VecTable E :=
  es.foldl VecTable.appendOne tbl

/-- `VecTable::set_current_seq` (vec.rs lines 49-51):
`self.current_seq = self.current_seq.max(seq)`. -/
def VecTable.setCurrentSeq {E : Type} (tbl : VecTable E) (seq : Nat) : VecTable E :=
  { tbl with current_seq := Nat.max tbl.current_seq seq }

/-- `VecTable::get_current_seq` (vec.rs lines 32-34). -/
def VecTable.getCurrentSeq {E : Type} (tbl : VecTable E) : Nat :=
  tbl.current_seq

/-- The (seq, event) records of a table, in storage order.  The Rust
iterator holds a clone of the table and indexes `seqs` and `events` in
lock-step; the two parallel arrays are modelled as the zipped list. -/
def VecTable.records {E : Type} (tbl : VecTable E) : List (Nat × E) :=
  tbl.seqs.zip tbl.events

/-- Result index of `seqs.binary_search(&x)` mapped through
`Ok(idx) => idx + 1, Err(idx) => idx` (vec.rs lines 68-75).  On a
strictly sorted array this combination equals the number of entries that
are `≤ x` (std `binary_search` returns the matching index when found and
the insertion index when not). -/
def idxAfter (seqs : List Nat) (x : Nat) : Nat :=
  seqs.countP (fun s => decide (s ≤ x))

/-- State of `VecTableIterator` (vec.rs lines 54-60): table records
(the cloned table), the direction flag, and the index window. -/
structure VecTableIterator (E : Type) where
  entries : List (Nat × E)
  reverse : Bool
  min_idx_inclusive : Nat
  max_idx_exclusive : Nat
deriving Repr, DecidableEq

/-- `VecTableIterator::new` (vec.rs lines 62-77): locate both bounds by
binary search. -/
def VecTableIterator.new {E : Type} (tbl : VecTable E) (reverse : Bool)
    (min_seq_exclusive max_seq_inclusive : Nat) : VecTableIterator E :=
  { entries := tbl.records
    reverse := reverse
    min_idx_inclusive := idxAfter tbl.seqs min_seq_exclusive
    max_idx_exclusive := idxAfter tbl.seqs max_seq_inclusive }

/-- `VecTable::scan` (vec.rs lines 26-30): direction is encoded by the
relative order of the two bounds. -/
def VecTable.scan {E : Type} (tbl : VecTable E) (start end_ : Nat) : VecTableIterator E :=
  let reverse := decide (end_ < start)
  let mn := if reverse then end_ else start
  let mx := if reverse then start else end_
  VecTableIterator.new tbl reverse mn mx

/-- Inherent `VecTableIterator::next` (vec.rs lines 79-88): yield the
record at `min_idx_inclusive` and advance it.  Returns the yielded item
together with the successor iterator state. -/
def VecTableIterator.innerNext {E : Type} (it : VecTableIterator E) :
    Option ((Nat × E) × VecTableIterator E) :=
  if it.min_idx_inclusive = it.max_idx_exclusive then
    none
  else
    match it.entries.get? it.min_idx_inclusive with
    | some p => some (p, { it with min_idx_inclusive := it.min_idx_inclusive + 1 })
    | none => none

/-- Inherent `VecTableIterator::next_back` (vec.rs lines 90-99):
decrement `max_idx_exclusive` and yield the record there. -/
def VecTableIterator.innerNextBack {E : Type} (it : VecTableIterator E) :
    Option ((Nat × E) × VecTableIterator E) :=
  if it.min_idx_inclusive = it.max_idx_exclusive then
    none
  else
    match it.entries.get? (it.max_idx_exclusive - 1) with
    | some p => some (p, { it with max_idx_exclusive := it.max_idx_exclusive - 1 })
    | none => none

/-- The `Iterator::next` impl (vec.rs lines 102-112): dispatch on the
direction flag. -/
def VecTableIterator.iterNext {E : Type} (it : VecTableIterator E) :
    Option ((Nat × E) × VecTableIterator E) :=
  if it.reverse then it.innerNextBack else it.innerNext

/-- The `DoubleEndedIterator::next_back` impl (vec.rs lines 114-122). -/
def VecTableIterator.iterNextBack {E : Type} (it : VecTableIterator E) :
    Option ((Nat × E) × VecTableIterator E) :=
  if it.reverse then it.innerNext else it.innerNextBack

/-- Repeatedly apply an iterator step, collecting the yielded items.
`fuel` bounds the number of steps; every use below passes fuel at least
as large as the number of items the iterator can yield, so the collected
list is the full drain of the iterator. -/
def drain {σ α : Type _} (step : σ → Option (α × σ)) : Nat → σ → List α
  | 0, _ => []
  | fuel + 1, s =>
    match step s with
    | none => []
    | some (a, s1) => a :: drain step fuel s1

/-- The sequence of records produced by consuming `tbl.scan(start, end)`
with `Iterator::next` (a Rust `for` loop / forward `collect`). -/
def VecTable.scanList {E : Type} (tbl : VecTable E) (start end_ : Nat) : List (Nat × E) :=
  drain VecTableIterator.iterNext tbl.records.length (tbl.scan start end_)

/-- The sequence of records produced by consuming
`tbl.scan(start, end).rev()` — i.e. repeated
`DoubleEndedIterator::next_back`. -/
def VecTable.scanListRev {E : Type} (tbl : VecTable E) (start end_ : Nat) : List (Nat × E) :=
  drain VecTableIterator.iterNextBack tbl.records.length (tbl.scan start end_)


/-- The op vocabulary `HashMapUpdate` (hash_map_index.rs lines 6-15). -/
inductive HashMapUpdate (K V : Type) where
  | insertOp (key : K) (value : V)
  | removeOp (key : K)
  | clearOp
deriving Repr, DecidableEq

/-- Extensional model of a Rust `HashMap<K, V>`. -/
def HMap (K V : Type) : Type := K → Option V

/-- The empty map (`HashMap::default`). -/
def HMap.empty {K V : Type} : HMap K V := fun _ => none

/-- `HashMap::insert`. -/
def HMap.insert {K V : Type} [DecidableEq K] (m : HMap K V) (k : K) (v : V) : HMap K V :=
  fun x => if x = k then some v else m x

/-- `HashMap::remove`. -/
def HMap.remove {K V : Type} [DecidableEq K] (m : HMap K V) (k : K) : HMap K V :=
  fun x => if x = k then none else m x

/-- `HashMap::clear`. -/
def HMap.clearAll {K V : Type} (_ : HMap K V) : HMap K V := fun _ => none

/-- Remove every key of a collected key set from the map (the
`for key in &keys { result.remove(key) }` loops of `get_all`).  The
iteration order of the Rust `HashSet` is irrelevant because removal is
commutative; the set is modelled as a list. -/
def HMap.removeAll {K V : Type} [DecidableEq K] (m : HMap K V) (ks : List K) : HMap K V :=
  fun x => if ks.contains x then none else m x

/-- `HashSet::insert` on a duplicate-free list model. -/
def keyInsert {K : Type} [DecidableEq K] (ks : List K) (k : K) : List K :=
  if ks.contains k then ks else ks ++ [k]

/-- Apply one `HashMapUpdate` to a map, as in the forward-replay loops of
`HashMapIndex::update` (hash_map_index.rs lines 38-50) and of the
ahead branch of `get_all` (lines 169-181). -/
def applyUpdate {K V : Type} [DecidableEq K] (m : HMap K V) :
    HashMapUpdate K V → HMap K V
  | .insertOp k v => m.insert k v
  | .removeOp k => m.remove k
  | .clearOp => m.clearAll

/-- Apply the projected ops of a scanned record stream to a map, record
by record, each record's op list in order. -/
def applyScan {K V E : Type} [DecidableEq K] (f : E → List (HashMapUpdate K V))
    (recs : List (Nat × E)) (m : HMap K V) : HMap K V :=
  recs.foldl (fun acc r => (f r.2).foldl applyUpdate acc) m

/-- State of `HashMapIndex` (hash_map_index.rs lines 17-26).  The
`to_assignment` projection is a function-typed field in Rust; it is
carried as an explicit argument `f` of each operation instead of being
stored in the state. -/
structure HashMapIndex (K V : Type) where
  current_seq : Nat
  map : HMap K V

/-- `HashMapIndex::new` (hash_map_index.rs lines 67-69). -/
def HashMapIndex.new {K V : Type} : HashMapIndex K V :=
  { current_seq := 0, map := HMap.empty }

/-- `HashMapIndex::update` (hash_map_index.rs lines 36-54): fold the ops
of `source.scan(current_seq, seq)` into the map, then set
`current_seq = seq`.  Note that when `seq < current_seq` the scan is a
backward scan, and that `current_seq` is assigned unconditionally. -/
def HashMapIndex.update {K V E : Type} [DecidableEq K]
    (f : E → List (HashMapUpdate K V)) (source : VecTable E)
    (st : HashMapIndex K V) (seq : Nat) : HashMapIndex K V :=
  { current_seq := seq
    map := applyScan f (source.scanList st.current_seq seq) st.map }

/-- Phase 1 of the behind branch of `get_all` — per-event inner loop
(hash_map_index.rs lines 192-202): collect the keys of `Insert`/`Remove`
ops into `modified_keys`; on `Clear` set the `cleared` flag and `break`
out of this event's update list (the outer event loop continues). -/
def collectUpds {K V : Type} [DecidableEq K] :
    List (HashMapUpdate K V) → List K → List K × Bool
  | [], ks => (ks, false)
  | .insertOp k _ :: rest, ks => collectUpds rest (keyInsert ks k)
  | .removeOp k :: rest, ks => collectUpds rest (keyInsert ks k)
  | .clearOp :: _, ks => (ks, true)

/-- Phase 1 of the behind branch of `get_all` — outer loop over the
forward scan of `(seq, current_seq]` (hash_map_index.rs lines 186-203). -/
def collectModified {K V E : Type} [DecidableEq K]
    (f : E → List (HashMapUpdate K V)) (recs : List (Nat × E)) : List K × Bool :=
  recs.foldl
    (fun acc r =>
      let step := collectUpds (f r.2) acc.1
      (step.1, acc.2 || step.2))
    ([], false)

/-- Cleared-rebuild branch of `get_all` — per-event inner loop over the
reversed update list (hash_map_index.rs lines 210-227): `Clear` breaks
out of this event's updates only; an `Insert` lands only if the key is
neither already in the result nor noted as removed; a `Remove` notes the
key as removed. -/
def rebuildUpds {K V : Type} [DecidableEq K] :
    List (HashMapUpdate K V) → List K → HMap K V → List K × HMap K V
  | [], removed, result => (removed, result)
  | .clearOp :: _, removed, result => (removed, result)
  | .insertOp k v :: rest, removed, result =>
    if (result k).isNone && !(removed.contains k) then
      rebuildUpds rest removed (result.insert k v)
    else
      rebuildUpds rest removed result
  | .removeOp k :: rest, removed, result =>
    rebuildUpds rest (keyInsert removed k) result

/-- Cleared-rebuild branch of `get_all` — outer loop over the descending
scan of `(0, seq]` (hash_map_index.rs lines 205-229). -/
def rebuildCleared {K V E : Type} [DecidableEq K]
    (f : E → List (HashMapUpdate K V)) :
    List (Nat × E) → List K → HMap K V → HMap K V
  | [], _, result => result
  | r :: rest, removed, result =>
    let step := rebuildUpds (f r.2).reverse removed result
    rebuildCleared f rest step.1 step.2

/-- No-clear rewind branch of `get_all` — per-event inner loop over the
reversed update list (hash_map_index.rs lines 234-253): `Clear` removes
every still-unresolved modified key from the result (leaving
`modified_keys` untouched); `Insert` applies only if the key is still in
`modified_keys`, consuming it; `Remove` consumes the key. -/
def rewindUpds {K V : Type} [DecidableEq K] :
    List (HashMapUpdate K V) → List K → HMap K V → List K × HMap K V
  | [], modified, result => (modified, result)
  | .clearOp :: rest, modified, result =>
    rewindUpds rest modified (result.removeAll modified)
  | .insertOp k v :: rest, modified, result =>
    if modified.contains k then
      rewindUpds rest (modified.erase k) (result.insert k v)
    else
      rewindUpds rest modified result
  | .removeOp k :: rest, modified, result =>
    rewindUpds rest (modified.erase k) result

/-- No-clear rewind branch of `get_all` — outer loop over the descending
scan of `(0, seq]` (hash_map_index.rs lines 231-267): after each event,
if every modified key has been resolved the result is returned early;
keys still unresolved when the scan is exhausted are removed. -/
def rewindNoClear {K V E : Type} [DecidableEq K]
    (f : E → List (HashMapUpdate K V)) :
    List (Nat × E) → List K → HMap K V → HMap K V
  | [], modified, result => result.removeAll modified
  | r :: rest, modified, result =>
    let step := rewindUpds (f r.2).reverse modified result
    if step.1.isEmpty then step.2 else rewindNoClear f rest step.1 step.2

/-- `HashMapIndex::get_all` (hash_map_index.rs lines 164-270). -/
def HashMapIndex.getAll {K V E : Type} [DecidableEq K]
    (f : E → List (HashMapUpdate K V)) (source : VecTable E)
    (st : HashMapIndex K V) (seq : Nat) : HMap K V :=
  if st.current_seq ≤ seq then
    applyScan f (source.scanList st.current_seq seq) st.map
  else
    let phase1 := collectModified f (source.scanList seq st.current_seq)
    if phase1.2 then
      rebuildCleared f (source.scanListRev 0 seq) [] HMap.empty
    else
      rewindNoClear f (source.scanListRev 0 seq) phase1.1 st.map

/-- The specification's replay semantics (spec §3 "Index state" and §8
"Replay equivalence"): fold all projected ops with seq ≤ the query seq,
in ascending seq order, starting from the empty map. -/
def replayAt {K V E : Type} [DecidableEq K]
    (f : E → List (HashMapUpdate K V)) (source : VecTable E) (seq : Nat) : HMap K V :=
  applyScan f (source.records.filter (fun p => decide (p.1 ≤ seq))) HMap.empty

/-- The projection used by the `get_all_clear` tests: the event type is
the op type itself and every event projects to the singleton op list. -/
def idProj {K V : Type} (u : HashMapUpdate K V) : List (HashMapUpdate K V) := [u]

/-- State of `CompositeView` (composite.rs lines 3-7), with `VecTable`
members (the configuration the composite tests use). -/
structure CompositeView (E : Type) where
  views : List (VecTable E)
  vector_clock : List Nat
deriving Repr, DecidableEq

/-- `CompositeView::new` (composite.rs lines 10-13): the vector clock is
sized to the member count and zero-initialised. -/
def CompositeView.new {E : Type} (views : List (VecTable E)) : CompositeView E :=
  { views := views, vector_clock := List.replicate views.length 0 }

/-- `CompositeView::vector_clock_update` (composite.rs lines 15-17) on
its non-panicking domain: `self.vector_clock[node_id] = seq`. -/
def CompositeView.vectorClockUpdate {E : Type} (cv : CompositeView E)
    (node_id seq : Nat) : CompositeView E :=
  { cv with vector_clock := cv.vector_clock.set node_id seq }

/-- `CompositeView::vector_clock_update` with the Rust indexing panic
made explicit: `vector_clock[node_id]` panics when `node_id` is out of
bounds, modelled as `none`. -/
def CompositeView.vectorClockUpdateChecked {E : Type} (cv : CompositeView E)
    (node_id seq : Nat) : Option (CompositeView E) :=
  if node_id < cv.vector_clock.length then
    some (cv.vectorClockUpdate node_id seq)
  else
    none

/-- Minimum of a list of seqs, `0` for the empty list — models
`self.vector_clock.iter().min().copied().unwrap_or_default()`
(composite.rs line 35). -/
def minClock : List Nat → Nat
  | [] => 0
  | x :: xs => xs.foldl Nat.min x

/-- `CompositeView::get_current_seq` (composite.rs lines 31-36). -/
def CompositeView.getCurrentSeq {E : Type} (cv : CompositeView E) : Nat :=
  minClock cv.vector_clock

/-- `CompositeViewIterator::new` (composite.rs lines 47-56): scan every
member with the same bounds. -/
def CompositeView.scan {E : Type} (cv : CompositeView E) (start end_ : Nat) :
    List (VecTableIterator E) :=
  cv.views.map (fun v => v.scan start end_)

/-- The selection loop of `CompositeViewIterator::next` (composite.rs
lines 66-84): peek every member iterator (on clones), tracking the
lowest seq seen, starting from the sentinel `min_seq = Seq::MAX` with a
strict `<` comparison, so ties keep the lowest member index. -/
def compositePick {E : Type} (its : List (VecTableIterator E)) : Option Nat :=
  (its.enum.foldl
    (fun acc p =>
      match p.2.iterNext with
      | some (e, _) => if e.1 < acc.1 then (e.1, some p.1) else acc
      | none => acc)
    (SEQMAX, none)).2

/-- `CompositeViewIterator::next` (composite.rs lines 65-88): select the
member with the lowest head seq, then advance that member's stored
iterator and return what it yields. -/
def compositeNext {E : Type} (its : List (VecTableIterator E)) :
    Option ((Nat × E) × List (VecTableIterator E)) :=
  match compositePick its with
  | none => none
  | some idx =>
    match its.get? idx with
    | none => none
    | some it =>
      match it.iterNext with
      | none => none
      | some (e, it1) => some (e, its.set idx it1)

/-- The selection loop of `CompositeViewIterator::next_back`
(composite.rs lines 96-114): peek every member iterator from the back,
tracking the highest seq seen, starting from `max_seq = Seq::MIN` with a
`>=` comparison, so ties keep the highest member index. -/
def compositePickBack {E : Type} (its : List (VecTableIterator E)) : Option Nat :=
  (its.enum.foldl
    (fun acc p =>
      match p.2.iterNextBack with
      | some (e, _) => if acc.1 ≤ e.1 then (e.1, some p.1) else acc
      | none => acc)
    (0, none)).2

/-- `CompositeViewIterator::next_back` (composite.rs lines 95-118). -/
def compositeNextBack {E : Type} (its : List (VecTableIterator E)) :
    Option ((Nat × E) × List (VecTableIterator E)) :=
  match compositePickBack its with
  | none => none
  | some idx =>
    match its.get? idx with
    | none => none
    | some it =>
      match it.iterNextBack with
      | none => none
      | some (e, it1) => some (e, its.set idx it1)

/-- Total record count of a composite scan, used as drain fuel. -/
def compositeFuel {E : Type} (its : List (VecTableIterator E)) : Nat :=
  (its.map (fun it => it.entries.length)).sum

/-- The record sequence produced by consuming `cv.scan(start, end)` with
`Iterator::next` (forward consumption). -/
def CompositeView.scanList {E : Type} (cv : CompositeView E) (start end_ : Nat) :
    List (Nat × E) :=
  drain compositeNext (compositeFuel (cv.scan start end_)) (cv.scan start end_)

/-- The record sequence produced by consuming `cv.scan(start, end).rev()`
(repeated `DoubleEndedIterator::next_back`). -/
def CompositeView.scanListRev {E : Type} (cv : CompositeView E) (start end_ : Nat) :
    List (Nat × E) :=
  drain compositeNextBack (compositeFuel (cv.scan start end_)) (cv.scan start end_)

/-- State of `VectorLog` (source_log/vector_log.rs lines 3-7). -/
structure VectorLog (E : Type) where
  seqs : List Nat
  events : List E
deriving Repr, DecidableEq

/-- `VectorLog::new` (vector_log.rs lines 9-13). -/
def VectorLog.new {E : Type} : VectorLog E :=
  { seqs := [], events := [] }

/-- Maximum of a list of seqs with default `0` — models
`seqs.iter().max().unwrap_or_default()`; for `Nat` the left fold below
computes exactly that value. -/
def maxSeqOf (seqs : List Nat) : Nat :=
  seqs.foldl Nat.max 0

/-- `VectorLog::current_seq` (vector_log.rs lines 31-33):
`self.seqs.iter().max().copied().unwrap_or_default() + 1` — the NEXT seq
to assign, not the last assigned one. -/
def VectorLog.currentSeq {E : Type} (l : VectorLog E) : Nat :=
  maxSeqOf l.seqs + 1

/-- One step of `VectorLog::write` (vector_log.rs lines 36-42):
`self.seqs.push(self.current_seq())`. -/
def VectorLog.writeOne {E : Type} (l : VectorLog E) (e : E) : VectorLog E :=
  { seqs := l.seqs ++ [l.currentSeq], events := l.events ++ [e] }

/-- `VectorLog::write` over a batch of events (vector_log.rs lines 36-42). -/
def VectorLog.writeList {E : Type} (l : VectorLog E) (es : List E) : VectorLog E :=
  es.foldl VectorLog.writeOne l

/-- Apply a sequence of `vector_clock_update(member, seq)` calls to a
composite view. -/
def applyCalls {E : Type} (cv : CompositeView E) (calls : List (Nat × Nat)) :
    CompositeView E :=
  calls.foldl (fun acc c => acc.vectorClockUpdate c.1 c.2) cv

/-- The evolution of the vector clock alone under a sequence of
`vector_clock_update` calls. -/
def applyClock (clock : List Nat) (calls : List (Nat × Nat)) : List Nat :=
  calls.foldl (fun acc c => acc.set c.1 c.2) clock

/-- The seq argument of the first call for a given member in a call
sequence, if any. -/
def firstArg (calls : List (Nat × Nat)) (m : Nat) : Option Nat :=
  (calls.find? (fun c => decide (c.1 = m))).map (fun c => c.2)

/-- Decidable statement that each member's successive seq arguments in a
call sequence are non-decreasing: every call's seq is at most the seq of
the next call for the same member. -/
def perMemberMono : List (Nat × Nat) → Bool
  | [] => true
  | c :: rest =>
    (match firstArg rest c.1 with
     | none => true
     | some s => decide (c.2 ≤ s)) && perMemberMono rest

/-- Well-formedness of a `VecTable` state, maintained by the `Table`
API: the stored seqs are strictly increasing (each `append` assigns
`current_seq + 1` after bumping, and `set_current_seq` only grows
`current_seq`), and the two parallel arrays have equal length. -/
def VecTable.WF {E : Type} (tbl : VecTable E) : Prop :=
  tbl.seqs.Pairwise (· < ·) ∧ tbl.seqs.length = tbl.events.length

instance {E : Type} (tbl : VecTable E) : Decidable tbl.WF := by
  unfold VecTable.WF
  infer_instance

/-- The records of a table whose seq lies in the half-open interval
`(min(a,b), max(a,b)]` — the set of records a scan with bounds `a`, `b`
is specified to return. -/
def VecTable.inRange {E : Type} (tbl : VecTable E) (a b : Nat) : List (Nat × E) :=
  tbl.records.filter (fun p => decide (Nat.min a b < p.1) && decide (p.1 ≤ Nat.max a b))

/-- The spec's scan example (spec section 8): table writes 12,34,56,78 at
seqs 1..4; scan(1,3) yields [(2,34),(3,56)] (also the vec.rs test
`scan_partial_multiple`). -/
example : (VecTable.new.appendList [12, 34, 56, 78]).scanList 1 3 = [(2, 34), (3, 56)] := by
  decide

/-- The repo's own `get_all_clear` test (hash_map_index.rs lines 381-416),
replayed against the embedding. -/
example :
    let tbl : VecTable (HashMapUpdate Nat Nat) :=
      VecTable.new.appendList
        [.insertOp 1 10, .insertOp 2 20, .clearOp, .insertOp 3 30]
    let st := HashMapIndex.new.update idProj tbl 4
    st.getAll idProj tbl 3 1 = none ∧ st.getAll idProj tbl 2 2 = some 20 ∧
      st.getAll idProj tbl 4 3 = some 30 ∧ st.getAll idProj tbl 4 1 = none := by
  decide

theorem drain_innerNext {E : Type} : ∀ (fuel : Nat) (it : VecTableIterator E),
    it.max_idx_exclusive ≤ it.entries.length →
    it.min_idx_inclusive ≤ it.max_idx_exclusive →
    it.max_idx_exclusive - it.min_idx_inclusive ≤ fuel →
    drain VecTableIterator.innerNext fuel it =
      (it.entries.take it.max_idx_exclusive).drop it.min_idx_inclusive
  | 0, it, h1, h2, h3 => by
    have heq : it.max_idx_exclusive = it.min_idx_inclusive := by omega
    rw [drain, List.drop_eq_nil_of_le]
    rw [List.length_take]
    omega
  | fuel + 1, it, h1, h2, h3 => by
    by_cases heq : it.min_idx_inclusive = it.max_idx_exclusive
    · rw [drain, VecTableIterator.innerNext, if_pos heq, List.drop_eq_nil_of_le]
      rw [List.length_take]
      omega
    · have hlt : it.min_idx_inclusive < it.max_idx_exclusive := Nat.lt_of_le_of_ne h2 heq
      have hb : it.min_idx_inclusive < it.entries.length := Nat.lt_of_lt_of_le hlt h1
      have hbt : it.min_idx_inclusive < (it.entries.take it.max_idx_exclusive).length := by
        rw [List.length_take]; omega
      rw [drain, VecTableIterator.innerNext, if_neg heq, List.get?_eq_getElem?,
        List.getElem?_eq_getElem hb]
      simp only
      rw [drain_innerNext fuel
        { it with min_idx_inclusive := it.min_idx_inclusive + 1 } h1 hlt (by simp only; omega)]
      rw [List.drop_eq_getElem_cons hbt, List.getElem_take]

theorem drain_innerNextBack {E : Type} : ∀ (fuel : Nat) (it : VecTableIterator E),
    it.max_idx_exclusive ≤ it.entries.length →
    it.min_idx_inclusive ≤ it.max_idx_exclusive →
    it.max_idx_exclusive - it.min_idx_inclusive ≤ fuel →
    drain VecTableIterator.innerNextBack fuel it =
      ((it.entries.take it.max_idx_exclusive).drop it.min_idx_inclusive).reverse
  | 0, it, h1, h2, h3 => by
    rw [drain, List.drop_eq_nil_of_le, List.reverse_nil]
    rw [List.length_take]
    omega
  | fuel + 1, it, h1, h2, h3 => by
    by_cases heq : it.min_idx_inclusive = it.max_idx_exclusive
    · rw [drain, VecTableIterator.innerNextBack, if_pos heq, List.drop_eq_nil_of_le,
        List.reverse_nil]
      rw [List.length_take]
      omega
    · have hlt : it.min_idx_inclusive < it.max_idx_exclusive := Nat.lt_of_le_of_ne h2 heq
      have hb : it.max_idx_exclusive - 1 < it.entries.length := by omega
      rw [drain, VecTableIterator.innerNextBack, if_neg heq, List.get?_eq_getElem?,
        List.getElem?_eq_getElem hb]
      simp only
      rw [drain_innerNextBack fuel
        { it with max_idx_exclusive := it.max_idx_exclusive - 1 }
        (by simp only; omega) (by simp only; omega) (by simp only; omega)]
      simp only
      have hstep : it.entries.take it.max_idx_exclusive
          = it.entries.take (it.max_idx_exclusive - 1)
            ++ [it.entries[it.max_idx_exclusive - 1]] := by
        conv_lhs => rw [show it.max_idx_exclusive = (it.max_idx_exclusive - 1) + 1 by omega]
        rw [List.take_succ, List.getElem?_eq_getElem hb]
        rfl
      rw [hstep, List.drop_append_of_le_length (by rw [List.length_take]; omega),
        List.reverse_concat]

theorem slice_eq_filter {E : Type} : ∀ (l : List (Nat × E)) (a b : Nat),
    l.Pairwise (fun p q => p.1 < q.1) →
    (l.take (l.countP (fun p => decide (p.1 ≤ b)))).drop (l.countP (fun p => decide (p.1 ≤ a)))
      = l.filter (fun p => decide (a < p.1) && decide (p.1 ≤ b))
  | [], _, _, _ => rfl
  | p :: t, a, b, hpw => by
    rcases List.pairwise_cons.mp hpw with ⟨hp, ht⟩
    by_cases ha : p.1 ≤ a
    · by_cases hb : p.1 ≤ b
      · have e1 : (p :: t).countP (fun q => decide (q.1 ≤ a))
            = t.countP (fun q => decide (q.1 ≤ a)) + 1 := by
          simp [List.countP_cons, ha]
        have e2 : (p :: t).countP (fun q => decide (q.1 ≤ b))
            = t.countP (fun q => decide (q.1 ≤ b)) + 1 := by
          simp [List.countP_cons, hb]
        rw [e1, e2, List.take_succ_cons, List.drop_succ_cons,
          slice_eq_filter t a b ht, List.filter_cons_of_neg]
        simp
        omega
      · have e2 : (p :: t).countP (fun q => decide (q.1 ≤ b)) = 0 := by
          rw [List.countP_cons]
          have : t.countP (fun q => decide (q.1 ≤ b)) = 0 :=
            List.countP_eq_zero.mpr (fun q hq => by
              have := hp q hq
              simp
              omega)
          simp [this, hb]
        rw [e2, List.take_zero, List.drop_nil, Eq.comm, List.filter_eq_nil_iff]
        intro q hq
        rcases List.mem_cons.mp hq with h | h
        · subst h
          simp
          omega
        · have := hp q h
          simp
          omega
    · by_cases hb : p.1 ≤ b
      · have e1 : (p :: t).countP (fun q => decide (q.1 ≤ a)) = 0 := by
          rw [List.countP_cons]
          have : t.countP (fun q => decide (q.1 ≤ a)) = 0 :=
            List.countP_eq_zero.mpr (fun q hq => by
              have := hp q hq
              simp
              omega)
          simp [this, ha]
        have e1t : t.countP (fun q => decide (q.1 ≤ a)) = 0 :=
          List.countP_eq_zero.mpr (fun q hq => by
            have := hp q hq
            simp
            omega)
        have e2 : (p :: t).countP (fun q => decide (q.1 ≤ b))
            = t.countP (fun q => decide (q.1 ≤ b)) + 1 := by
          simp [List.countP_cons, hb]
        rw [e1, e2, List.take_succ_cons, List.drop_zero, List.filter_cons_of_pos]
        · have ih := slice_eq_filter t a b ht
          rw [e1t, List.drop_zero] at ih
          rw [ih]
        · simp
          omega
      · have e2 : (p :: t).countP (fun q => decide (q.1 ≤ b)) = 0 := by
          rw [List.countP_cons]
          have : t.countP (fun q => decide (q.1 ≤ b)) = 0 :=
            List.countP_eq_zero.mpr (fun q hq => by
              have := hp q hq
              simp
              omega)
          simp [this, hb]
        rw [e2, List.take_zero, List.drop_nil, Eq.comm, List.filter_eq_nil_iff]
        intro q hq
        rcases List.mem_cons.mp hq with h | h
        · subst h
          simp
          omega
        · have := hp q h
          simp
          omega

theorem innerNext_reverse {E : Type} {it it1 : VecTableIterator E} {e : Nat × E}
    (h : it.innerNext = some (e, it1)) : it1.reverse = it.reverse := by
  unfold VecTableIterator.innerNext at h
  by_cases hc : it.min_idx_inclusive = it.max_idx_exclusive
  · rw [if_pos hc] at h
    exact absurd h (by simp)
  · rw [if_neg hc] at h
    cases hg : it.entries.get? it.min_idx_inclusive with
    | none =>
      rw [hg] at h
      exact absurd h (by simp)
    | some p =>
      rw [hg] at h
      simp at h
      rw [← h.2]

theorem innerNextBack_reverse {E : Type} {it it1 : VecTableIterator E} {e : Nat × E}
    (h : it.innerNextBack = some (e, it1)) : it1.reverse = it.reverse := by
  unfold VecTableIterator.innerNextBack at h
  by_cases hc : it.min_idx_inclusive = it.max_idx_exclusive
  · rw [if_pos hc] at h
    exact absurd h (by simp)
  · rw [if_neg hc] at h
    cases hg : it.entries.get? (it.max_idx_exclusive - 1) with
    | none =>
      rw [hg] at h
      exact absurd h (by simp)
    | some p =>
      rw [hg] at h
      simp at h
      rw [← h.2]

theorem drain_iterNext_eq {E : Type} : ∀ (fuel : Nat) (it : VecTableIterator E),
    drain VecTableIterator.iterNext fuel it =
      if it.reverse then drain VecTableIterator.innerNextBack fuel it
      else drain VecTableIterator.innerNext fuel it
  | 0, it => by cases hr : it.reverse <;> simp [drain]
  | fuel + 1, it => by
    by_cases hr : it.reverse = true
    · rw [if_pos hr, drain, drain, VecTableIterator.iterNext, if_pos hr]
      cases hs : it.innerNextBack with
      | none => rfl
      | some pr =>
        obtain ⟨e, it1⟩ := pr
        show e :: drain VecTableIterator.iterNext fuel it1
          = e :: drain VecTableIterator.innerNextBack fuel it1
        rw [drain_iterNext_eq fuel it1, innerNextBack_reverse hs, if_pos hr]
    · rw [if_neg hr, drain, drain, VecTableIterator.iterNext, if_neg hr]
      cases hs : it.innerNext with
      | none => rfl
      | some pr =>
        obtain ⟨e, it1⟩ := pr
        show e :: drain VecTableIterator.iterNext fuel it1
          = e :: drain VecTableIterator.innerNext fuel it1
        rw [drain_iterNext_eq fuel it1, innerNext_reverse hs, if_neg hr]

theorem drain_iterNextBack_eq {E : Type} : ∀ (fuel : Nat) (it : VecTableIterator E),
    drain VecTableIterator.iterNextBack fuel it =
      if it.reverse then drain VecTableIterator.innerNext fuel it
      else drain VecTableIterator.innerNextBack fuel it
  | 0, it => by cases hr : it.reverse <;> simp [drain]
  | fuel + 1, it => by
    by_cases hr : it.reverse = true
    · rw [if_pos hr, drain, drain, VecTableIterator.iterNextBack, if_pos hr]
      cases hs : it.innerNext with
      | none => rfl
      | some pr =>
        obtain ⟨e, it1⟩ := pr
        show e :: drain VecTableIterator.iterNextBack fuel it1
          = e :: drain VecTableIterator.innerNext fuel it1
        rw [drain_iterNextBack_eq fuel it1, innerNext_reverse hs, if_pos hr]
    · rw [if_neg hr, drain, drain, VecTableIterator.iterNextBack, if_neg hr]
      cases hs : it.innerNextBack with
      | none => rfl
      | some pr =>
        obtain ⟨e, it1⟩ := pr
        show e :: drain VecTableIterator.iterNextBack fuel it1
          = e :: drain VecTableIterator.innerNextBack fuel it1
        rw [drain_iterNextBack_eq fuel it1, innerNextBack_reverse hs, if_neg hr]

theorem records_pairwise {E : Type} (tbl : VecTable E) (h : tbl.WF) :
    tbl.records.Pairwise (fun p q => p.1 < q.1) := by
  have hfst : tbl.records.map Prod.fst = tbl.seqs :=
    List.map_fst_zip _ _ (le_of_eq h.2)
  have := h.1
  rw [← hfst] at this
  exact List.pairwise_map.mp this

theorem idxAfter_eq_countP {E : Type} (tbl : VecTable E) (h : tbl.WF) (x : Nat) :
    idxAfter tbl.seqs x = tbl.records.countP (fun p => decide (p.1 ≤ x)) := by
  have hfst : tbl.records.map Prod.fst = tbl.seqs :=
    List.map_fst_zip _ _ (le_of_eq h.2)
  unfold idxAfter
  rw [← hfst, List.countP_map]
  rfl

theorem idxAfter_le_len {E : Type} (tbl : VecTable E) (h : tbl.WF) (x : Nat) :
    idxAfter tbl.seqs x ≤ tbl.records.length := by
  rw [idxAfter_eq_countP tbl h]
  exact List.countP_le_length _

theorem idxAfter_mono {E : Type} (tbl : VecTable E) (h : tbl.WF) {x y : Nat}
    (hxy : x ≤ y) : idxAfter tbl.seqs x ≤ idxAfter tbl.seqs y := by
  rw [idxAfter_eq_countP tbl h, idxAfter_eq_countP tbl h]
  refine List.countP_mono_left (fun p _ hp => ?_)
  simp at hp ⊢
  omega

/-- Closed form of the forward consumption of `scan`: the in-range
records, ascending when `start ≤ end`, descending when `start > end`. -/
theorem scanList_eq {E : Type} (tbl : VecTable E) (h : tbl.WF) (a b : Nat) :
    tbl.scanList a b =
      if b < a then (tbl.inRange a b).reverse else tbl.inRange a b := by
  have hppw := records_pairwise tbl h
  by_cases hab : b < a
  · rw [if_pos hab]
    unfold VecTable.inRange
    rw [show Nat.min a b = b from Nat.min_eq_right (Nat.le_of_lt hab),
      show Nat.max a b = a from Nat.max_eq_left (Nat.le_of_lt hab)]
    simp only [VecTable.scanList, VecTable.scan, VecTableIterator.new, decide_eq_true hab,
      if_true]
    rw [drain_iterNext_eq]
    simp only [if_true]
    rw [drain_innerNextBack _ _ (idxAfter_le_len tbl h a)
      (idxAfter_mono tbl h (Nat.le_of_lt hab))
      (Nat.le_trans (Nat.sub_le _ _) (idxAfter_le_len tbl h a))]
    rw [idxAfter_eq_countP tbl h, idxAfter_eq_countP tbl h,
      slice_eq_filter tbl.records b a hppw]
  · rw [if_neg hab]
    have hab' : a ≤ b := Nat.le_of_not_lt hab
    unfold VecTable.inRange
    rw [show Nat.min a b = a from Nat.min_eq_left hab',
      show Nat.max a b = b from Nat.max_eq_right hab']
    simp only [VecTable.scanList, VecTable.scan, VecTableIterator.new, decide_eq_false hab,
      Bool.false_eq_true, if_false]
    rw [drain_iterNext_eq]
    simp only [Bool.false_eq_true, if_false]
    rw [drain_innerNext _ _ (idxAfter_le_len tbl h b) (idxAfter_mono tbl h hab')
      (Nat.le_trans (Nat.sub_le _ _) (idxAfter_le_len tbl h b))]
    rw [idxAfter_eq_countP tbl h, idxAfter_eq_countP tbl h,
      slice_eq_filter tbl.records a b hppw]

theorem scanList_self {E : Type} (tbl : VecTable E) (c : Nat) : tbl.scanList c c = [] := by
  simp only [VecTable.scanList, VecTable.scan, VecTableIterator.new,
    decide_eq_false (lt_irrefl c), Bool.false_eq_true, if_false]
  cases hl : tbl.records.length with
  | zero => rfl
  | succ n =>
    rw [drain]
    simp [VecTableIterator.iterNext, VecTableIterator.innerNext]

theorem maxSeqOf_append (l : List Nat) (x : Nat) :
    maxSeqOf (l ++ [x]) = Nat.max (maxSeqOf l) x := by
  simp [maxSeqOf, List.foldl_append]

theorem appendList_current_eq_max {E : Type} : ∀ (es : List E) (tbl : VecTable E),
    tbl.current_seq = maxSeqOf tbl.seqs →
    (tbl.appendList es).current_seq = maxSeqOf (tbl.appendList es).seqs
  | [], tbl, h => h
  | e :: es, tbl, h => by
    have hstep : (tbl.appendOne e).current_seq = maxSeqOf (tbl.appendOne e).seqs := by
      simp only [VecTable.appendOne, maxSeqOf_append, ← h]
      exact (Nat.max_eq_right (Nat.le_succ _)).symm
    exact appendList_current_eq_max es (tbl.appendOne e) hstep

theorem foldl_min_le_init : ∀ (xs : List Nat) (acc : Nat), List.foldl Nat.min acc xs ≤ acc
  | [], _ => le_refl _
  | y :: xs, acc =>
    Nat.le_trans (foldl_min_le_init xs (Nat.min acc y)) (Nat.min_le_left _ _)

theorem foldl_min_le_mem : ∀ (xs : List Nat) (acc a : Nat), a ∈ xs →
    List.foldl Nat.min acc xs ≤ a
  | y :: xs, acc, a, h => by
    rcases List.mem_cons.mp h with h1 | h1
    · subst h1
      exact Nat.le_trans (foldl_min_le_init xs (Nat.min acc a)) (Nat.min_le_right _ _)
    · exact foldl_min_le_mem xs (Nat.min acc y) a h1

theorem le_foldl_min : ∀ (xs : List Nat) (acc x : Nat), x ≤ acc → (∀ a ∈ xs, x ≤ a) →
    x ≤ List.foldl Nat.min acc xs
  | [], _, _, hx, _ => hx
  | y :: xs, acc, x, hx, hmem =>
    le_foldl_min xs (Nat.min acc y) x
      (Nat.le_min.mpr ⟨hx, hmem y (List.mem_cons_self y xs)⟩)
      (fun a ha => hmem a (List.mem_cons_of_mem y ha))

theorem minClock_le_mem : ∀ (l : List Nat) (a : Nat), a ∈ l → minClock l ≤ a
  | x :: xs, a, h => by
    rcases List.mem_cons.mp h with h1 | h1
    · subst h1
      exact foldl_min_le_init xs a
    · exact foldl_min_le_mem xs x a h1

theorem le_minClock : ∀ (l : List Nat) (x : Nat), l ≠ [] → (∀ a ∈ l, x ≤ a) → x ≤ minClock l
  | x0 :: xs, x, _, hmem =>
    le_foldl_min xs x0 x (hmem x0 (List.mem_cons_self x0 xs))
      (fun a ha => hmem a (List.mem_cons_of_mem x0 ha))

theorem minClock_set_mono (clock : List Nat) (m s : Nat)
    (h : clock.getD m 0 ≤ s) : minClock clock ≤ minClock (clock.set m s) := by
  by_cases hm : m < clock.length
  · have hne : clock.set m s ≠ [] := by
      intro hnil
      have := List.length_set clock m s
      rw [hnil] at this
      simp at this
      omega
    refine le_minClock _ _ hne (fun a ha => ?_)
    rcases List.mem_or_eq_of_mem_set ha with h1 | h1
    · exact minClock_le_mem _ _ h1
    · subst h1
      refine Nat.le_trans ?_ h
      rw [List.getD_eq_getElem?_getD, List.getElem?_eq_getElem hm]
      exact minClock_le_mem _ _ (List.getElem_mem hm)
  · rw [List.set_eq_of_length_le (by omega)]


theorem applyCalls_clock {E : Type} : ∀ (calls : List (Nat × Nat)) (cv : CompositeView E),
    (applyCalls cv calls).vector_clock = applyClock cv.vector_clock calls
  | [], _ => rfl
  | c :: rest, cv => by
    simp only [applyCalls, applyClock, List.foldl_cons]
    exact applyCalls_clock rest (cv.vectorClockUpdate c.1 c.2)

theorem minClock_mono_steps : ∀ (calls : List (Nat × Nat)) (clock : List Nat),
    perMemberMono calls = true →
    (∀ m s, firstArg calls m = some s → clock.getD m 0 ≤ s) →
    ∀ k, minClock (applyClock clock (calls.take k)) ≤
      minClock (applyClock clock (calls.take (k + 1)))
  | [], clock, _, _, k => by simp [applyClock]
  | c :: rest, clock, hp, hle, 0 => by
    simp only [List.take_zero, List.take_succ_cons, applyClock, List.foldl_nil,
      List.foldl_cons]
    refine minClock_set_mono _ _ _ (hle c.1 c.2 ?_)
    simp [firstArg, List.find?_cons]
  | c :: rest, clock, hp, hle, k + 1 => by
    simp only [List.take_succ_cons, applyClock, List.foldl_cons]
    have hp2 := (Bool.and_eq_true _ _).mp hp
    refine minClock_mono_steps rest (clock.set c.1 c.2) hp2.2 ?_ k
    intro m s hfa
    by_cases hm : m = c.1
    · subst hm
      have hcs : c.2 ≤ s := by
        have := hp2.1
        rw [hfa] at this
        simpa using this
      by_cases hb : c.1 < clock.length
      · have heq : (clock.set c.1 c.2).getD c.1 0 = c.2 := by
          rw [List.getD_eq_getElem?_getD, List.getElem?_set_self hb]
          rfl
        rw [heq]
        exact hcs
      · rw [List.set_eq_of_length_le (by omega)]
        have heq : clock.getD c.1 0 = 0 := by
          rw [List.getD_eq_getElem?_getD, List.getElem?_eq_none (by omega)]
          rfl
        rw [heq]
        exact Nat.zero_le s
    · have heq : (clock.set c.1 c.2).getD m 0 = clock.getD m 0 := by
        rw [List.getD_eq_getElem?_getD, List.getD_eq_getElem?_getD,
          List.getElem?_set_ne (by omega)]
      rw [heq]
      refine hle m s ?_
      have hd : (decide (c.1 = m)) = false := by
        simp
        exact fun he => hm he.symm
      simp only [firstArg, List.find?_cons, hd]
      exact hfa

/-- C1: refuted (code bug).  On the author's own commented-out test input
(hash_map_index.rs lines 419-453, left disabled with the note "todo:
something is broken with clear") — events `Insert(k1,v1)@1, Clear@2,
Insert(k1,v1)@3, Insert(k1,v2)@4`, index updated to seq 4 — `get_all(2)`
returns `{k1 ↦ v1}`, while folding all projected ops with seq ≤ 2 from
the empty map gives the empty map: in the no-clear rewind branch the
`Clear` at seq 2 removes the touched key from the cloned map but leaves
it in `modified_keys`, so the older `Insert` at seq 1 wrongly
resurrects it.  Replay equivalence therefore fails. -/
theorem get_all_replay_divergence :
    let tbl : VecTable (HashMapUpdate Nat Nat) :=
      VecTable.new.appendList [.insertOp 1 10, .clearOp, .insertOp 1 10, .insertOp 1 20]
    let st := HashMapIndex.new.update idProj tbl 4
    st.current_seq = 4 ∧
      st.getAll idProj tbl 2 1 = some 10 ∧ replayAt idProj tbl 2 1 = none := by
  decide

/-- C2: refuted (code bug).  Events `Insert(k1,v1)@1, Clear@2, Clear@3,
Insert(k2,v2)@4`, index updated to seq 4.  A `Clear` lies in
`(2, current_seq]`, so `get_all(2)` takes the cleared-rebuild branch; in
the descending rebuild scan of `(0, 2]` the `break` on the `Clear` at
seq 2 only exits that event's update list, the outer loop continues to
seq 1 and re-inserts `k1`.  So `get_all(2) = {k1 ↦ v1}` although a
`Clear` occurred at seq `c = 2 ≤ 2` and `k1` was never re-inserted after
it — the claimed Clear semantics are violated (replay gives the empty
map). -/
theorem get_all_clear_semantics_divergence :
    let tbl : VecTable (HashMapUpdate Nat Nat) :=
      VecTable.new.appendList [.insertOp 1 10, .clearOp, .clearOp, .insertOp 2 20]
    let st := HashMapIndex.new.update idProj tbl 4
    st.current_seq = 4 ∧
      st.getAll idProj tbl 2 1 = some 10 ∧ replayAt idProj tbl 2 1 = none := by
  decide

/-- C3 counterexample: the claim "update with seq ≤ current_seq is a
no-op" fails.  From the reachable index state with `current_seq = 5`
(obtained by `update(source, 5)` on an empty table), calling
`update(source, 3)` — with `3 ≤ 5` — rewinds `current_seq` to 3, so the
state is changed. -/
theorem index_update_rewind_counterexample :
    let st := HashMapIndex.update idProj (VecTable.new : VecTable (HashMapUpdate Nat Nat))
      HashMapIndex.new 5
    st.current_seq = 5 ∧ (st.update idProj VecTable.new 3).current_seq = 3 := by
  decide

/-- C3 amended: `HashMapIndex::update` is a no-op only when called with
`seq` equal to `current_seq`; for every `seq` it unconditionally sets the
watermark to `seq`, so a call with `seq < current_seq` rewinds the
watermark (and folds the ops of the backward scan of
`(seq, current_seq]` into the map) rather than being a no-op. -/
theorem index_update_noop_at_current {K V E : Type} [DecidableEq K]
    (f : E → List (HashMapUpdate K V)) (tbl : VecTable E) (st : HashMapIndex K V) :
    HashMapIndex.update f tbl st st.current_seq = st ∧
      ∀ s : Nat, (HashMapIndex.update f tbl st s).current_seq = s := by
  constructor
  · unfold HashMapIndex.update
    rw [scanList_self]
    rfl
  · intro s
    rfl

/-- C7 counterexample: `VectorLog::current_seq` on the empty log returns
1, not 0 as the claim states. -/
theorem vector_log_empty_current_seq_counterexample :
    (VectorLog.new : VectorLog Nat).currentSeq = 1 ∧ (1 : Nat) ≠ 0 := by
  decide

/-- C7 amended: for every append history from a fresh table/log,
`VecTable::get_current_seq` returns the greatest seq assigned so far
(0 if empty), while `VectorLog::current_seq` instead returns the NEXT
seq to assign — greatest assigned + 1 — and hence 1, not 0, on an empty
log. -/
theorem current_seq_conventions {E F : Type} (es : List E) (fs : List F) :
    (VecTable.new.appendList es).getCurrentSeq
        = maxSeqOf (VecTable.new.appendList es).seqs ∧
      (VectorLog.new.writeList fs).currentSeq
        = maxSeqOf (VectorLog.new.writeList fs).seqs + 1 ∧
      (VecTable.new : VecTable E).getCurrentSeq = 0 ∧
      (VectorLog.new : VectorLog F).currentSeq = 1 := by
  refine ⟨?_, rfl, rfl, rfl⟩
  exact appendList_current_eq_max es VecTable.new rfl

/-- C4: confirmed.  For every well-formed table and bounds `a ≤ b`,
`scan(a, b)` yields exactly the records with `a < seq ≤ b` in storage
(ascending seq) order, and `scan(b, a)` yields exactly the same records
in descending order. -/
theorem table_scan_range_correct {E : Type} (tbl : VecTable E) (hwf : tbl.WF)
    (a b : Nat) (hab : a ≤ b) :
    tbl.scanList a b
        = tbl.records.filter (fun p => decide (a < p.1) && decide (p.1 ≤ b)) ∧
      tbl.scanList b a
        = (tbl.records.filter (fun p => decide (a < p.1) && decide (p.1 ≤ b))).reverse := by
  constructor
  · rw [scanList_eq tbl hwf a b, if_neg (by omega)]
    unfold VecTable.inRange
    rw [show Nat.min a b = a from Nat.min_eq_left hab,
      show Nat.max a b = b from Nat.max_eq_right hab]
  · by_cases hba : a < b
    · rw [scanList_eq tbl hwf b a, if_pos hba]
      unfold VecTable.inRange
      rw [show Nat.min b a = a from Nat.min_eq_right hab,
        show Nat.max b a = b from Nat.max_eq_left hab]
    · have heq : a = b := by omega
      subst heq
      have hnil : tbl.records.filter (fun p => decide (a < p.1) && decide (p.1 ≤ a)) = [] :=
        List.filter_eq_nil_iff.mpr (fun p _ => by
          simp only [Bool.and_eq_true, decide_eq_true_eq, not_and]
          intro h1 h2
          omega)
      rw [scanList_eq tbl hwf a a, if_neg (by omega)]
      unfold VecTable.inRange
      rw [show Nat.min a a = a from Nat.min_eq_left (le_refl a),
        show Nat.max a a = a from Nat.max_eq_left (le_refl a), hnil, List.reverse_nil]

/-- Witness for C4 at the spec's own example (spec section 8): events
12, 34, 56, 78 at seqs 1..4, bounds (1, 3). -/
theorem table_scan_range_correct_witness :
    (VecTable.new.appendList [12, 34, 56, 78]).WF ∧ (1 : Nat) ≤ 3 ∧
      ((VecTable.new.appendList [12, 34, 56, 78]).scanList 1 3
          = (VecTable.new.appendList [12, 34, 56, 78]).records.filter
            (fun p => decide (1 < p.1) && decide (p.1 ≤ 3)) ∧
        (VecTable.new.appendList [12, 34, 56, 78]).scanList 3 1
          = ((VecTable.new.appendList [12, 34, 56, 78]).records.filter
            (fun p => decide (1 < p.1) && decide (p.1 ≤ 3))).reverse) :=
  ⟨by decide, by decide,
    table_scan_range_correct (VecTable.new.appendList [12, 34, 56, 78]) (by decide) 1 3
      (by decide)⟩

/-- C9: confirmed.  For every well-formed table and EVERY bound pair —
in particular bounds outside `[0, current_seq]` — the scan is total and
returns exactly the records falling in the requested range (in the
requested direction); if every record's seq is at most both bounds (the
range lies entirely beyond the last assigned seq) the scan yields no
records. -/
theorem table_scan_out_of_range_safe {E : Type} (tbl : VecTable E) (hwf : tbl.WF)
    (a b : Nat) :
    tbl.scanList a b
        = (if b < a then (tbl.inRange a b).reverse else tbl.inRange a b) ∧
      ((∀ p ∈ tbl.records, p.1 ≤ a ∧ p.1 ≤ b) → tbl.scanList a b = []) := by
  refine ⟨scanList_eq tbl hwf a b, fun hout => ?_⟩
  have hnil : tbl.inRange a b = [] := by
    unfold VecTable.inRange
    refine List.filter_eq_nil_iff.mpr (fun p hp => ?_)
    have h1 := (hout p hp).1
    have h2 := (hout p hp).2
    simp only [Bool.and_eq_true, decide_eq_true_eq, not_and]
    intro hlt _
    exact absurd (Nat.lt_of_lt_of_le hlt (Nat.le_min.mpr ⟨h1, h2⟩)) (lt_irrefl _)
  rw [scanList_eq tbl hwf a b, hnil]
  cases hd : decide (b < a) <;> simp

/-- Witness for C9: scanning a table whose last assigned seq is 4 with
the fully out-of-range bounds (10, 20). -/
theorem table_scan_out_of_range_safe_witness :
    (VecTable.new.appendList [12, 34, 56, 78]).WF ∧
      ((VecTable.new.appendList [12, 34, 56, 78]).scanList 10 20
          = (if (20 : Nat) < 10
              then ((VecTable.new.appendList [12, 34, 56, 78]).inRange 10 20).reverse
              else (VecTable.new.appendList [12, 34, 56, 78]).inRange 10 20) ∧
        ((∀ p ∈ (VecTable.new.appendList [12, 34, 56, 78]).records, p.1 ≤ 10 ∧ p.1 ≤ 20) →
          (VecTable.new.appendList [12, 34, 56, 78]).scanList 10 20 = [])) :=
  ⟨by decide,
    table_scan_out_of_range_safe (VecTable.new.appendList [12, 34, 56, 78]) (by decide) 10 20⟩

/-- C5: refuted (code bug).  A composite over one member holding a
record at seq `Seq::MAX` (reachable via `set_current_seq(Seq::MAX - 1)`
followed by one `append`): the forward merge initialises its selection
with the in-band sentinel `min_seq = Seq::MAX` and compares with strict
`<`, so the head with seq `Seq::MAX` is never selected and the forward
scan of `(0, Seq::MAX]` yields nothing, while the backward scan
(`.rev()`) yields the record.  Reversing the forward output therefore
does not equal the backward output for the same bound pair. -/
theorem composite_reverse_symmetry_divergence :
    (CompositeView.scanList
        (CompositeView.new [(VecTable.new.setCurrentSeq (SEQMAX - 1)).appendOne 42])
        0 SEQMAX).reverse = [] ∧
      CompositeView.scanListRev
          (CompositeView.new [(VecTable.new.setCurrentSeq (SEQMAX - 1)).appendOne 42])
          0 SEQMAX = [(SEQMAX, 42)] ∧
      ([] : List (Nat × Nat)) ≠ [(SEQMAX, 42)] := by
  decide

/-- C6: refuted (code bug).  Two members each holding a record at the
same seq `s = Seq::MAX`, both within the scanned range `(0, Seq::MAX]`:
the forward merge drops both records (the sentinel bug of C5), so the
lower-index member's record is not yielded before the higher-index
member's — it is not yielded at all.  The backward scan does yield the
higher-index member's record first, as claimed. -/
theorem composite_tie_break_divergence :
    CompositeView.scanList
        (CompositeView.new
          [(VecTable.new.setCurrentSeq (SEQMAX - 1)).appendOne 7,
            (VecTable.new.setCurrentSeq (SEQMAX - 1)).appendOne 8])
        0 SEQMAX = [] ∧
      CompositeView.scanListRev
          (CompositeView.new
            [(VecTable.new.setCurrentSeq (SEQMAX - 1)).appendOne 7,
              (VecTable.new.setCurrentSeq (SEQMAX - 1)).appendOne 8])
          0 SEQMAX = [(SEQMAX, 8), (SEQMAX, 7)] := by
  decide

/-- C8: confirmed.  Starting from a freshly constructed composite view
(all vector-clock entries zero), along any finite sequence of in-bounds
`vector_clock_update(member, seq)` calls whose per-member seq arguments
are non-decreasing, `get_current_seq` (the minimum over the vector
clock) never decreases from one call to the next. -/
theorem composite_current_seq_monotone {E : Type} (views : List (VecTable E))
    (calls : List (Nat × Nat)) (hmono : perMemberMono calls = true)
    (_hin : ∀ c ∈ calls, c.1 < views.length) (k : Nat) :
    (applyCalls (CompositeView.new views) (calls.take k)).getCurrentSeq ≤
      (applyCalls (CompositeView.new views) (calls.take (k + 1))).getCurrentSeq := by
  simp only [CompositeView.getCurrentSeq, applyCalls_clock]
  refine minClock_mono_steps calls (CompositeView.new views).vector_clock hmono ?_ k
  intro m s _
  have hz : ((CompositeView.new views).vector_clock).getD m 0 = 0 := by
    simp only [CompositeView.new]
    by_cases hb : m < views.length
    · rw [List.getD_eq_getElem?_getD, List.getElem?_replicate, if_pos (by simpa using hb)]
      rfl
    · rw [List.getD_eq_getElem?_getD, List.getElem?_eq_none (by simpa using hb)]
      rfl
  rw [hz]
  exact Nat.zero_le s

/-- Witness for C8: two members, calls (0,1), (1,2), (0,3) — per-member
non-decreasing and in bounds — checked at step k = 1. -/
theorem composite_current_seq_monotone_witness :
    perMemberMono [(0, 1), (1, 2), (0, 3)] = true ∧
      (∀ c ∈ [((0 : Nat), (1 : Nat)), (1, 2), (0, 3)],
        c.1 < ([VecTable.new, VecTable.new] : List (VecTable Nat)).length) ∧
      (applyCalls (CompositeView.new ([VecTable.new, VecTable.new] : List (VecTable Nat)))
            ([(0, 1), (1, 2), (0, 3)].take 1)).getCurrentSeq ≤
        (applyCalls (CompositeView.new ([VecTable.new, VecTable.new] : List (VecTable Nat)))
            ([(0, 1), (1, 2), (0, 3)].take 2)).getCurrentSeq :=
  ⟨by decide, by decide,
    composite_current_seq_monotone [VecTable.new, VecTable.new] [(0, 1), (1, 2), (0, 3)]
      (by decide) (by decide) 1⟩

/-- Supporting invariant (not tied to a claim): construction sizes the
vector clock to the member count, and `vector_clock_update` preserves
both the member list and the clock length, so the hypothesis of the C10
theorem holds in every reachable state. -/
theorem vector_clock_length_invariant {E : Type} (views : List (VecTable E))
    (cv : CompositeView E) (i s : Nat) :
    (CompositeView.new views).vector_clock.length = (CompositeView.new views).views.length ∧
      ((cv.vectorClockUpdate i s).views = cv.views ∧
        (cv.vectorClockUpdate i s).vector_clock.length = cv.vector_clock.length) := by
  refine ⟨?_, rfl, ?_⟩
  · simp [CompositeView.new]
  · simp [CompositeView.vectorClockUpdate]

/-- C10: confirmed.  In any state whose vector clock has the length
fixed at construction (the member count — see
`vector_clock_length_invariant`), `vector_clock_update(node_id, seq)`
with `node_id` below the member count succeeds and mutates exactly the
entry `node_id` of the vector clock (the member list and all other
entries are unchanged); with `node_id` at or above the member count the
indexing `vector_clock[node_id]` panics (modelled as `none`). -/
theorem vector_clock_update_bounds {E : Type} (cv : CompositeView E)
    (hlen : cv.vector_clock.length = cv.views.length) (i s : Nat) :
    (i < cv.views.length →
      cv.vectorClockUpdateChecked i s = some (cv.vectorClockUpdate i s) ∧
        (cv.vectorClockUpdate i s).views = cv.views ∧
        (cv.vectorClockUpdate i s).vector_clock.getD i 0 = s ∧
        ∀ j, j ≠ i →
          (cv.vectorClockUpdate i s).vector_clock.getD j 0 = cv.vector_clock.getD j 0) ∧
      (cv.views.length ≤ i → cv.vectorClockUpdateChecked i s = none) := by
  constructor
  · intro hi
    refine ⟨?_, rfl, ?_, ?_⟩
    · unfold CompositeView.vectorClockUpdateChecked
      rw [if_pos (by omega)]
    · simp only [CompositeView.vectorClockUpdate]
      rw [List.getD_eq_getElem?_getD, List.getElem?_set_self (by omega)]
      rfl
    · intro j hj
      simp only [CompositeView.vectorClockUpdate]
      rw [List.getD_eq_getElem?_getD, List.getElem?_set_ne (by omega),
        ← List.getD_eq_getElem?_getD]
  · intro hi
    unfold CompositeView.vectorClockUpdateChecked
    rw [if_neg (by omega)]

/-- Witness for C10: a two-member view, updating entry 0 to seq 7. -/
theorem vector_clock_update_bounds_witness :
    (CompositeView.new ([VecTable.new, VecTable.new] : List (VecTable Nat))).vector_clock.length
        = (CompositeView.new ([VecTable.new, VecTable.new] : List (VecTable Nat))).views.length ∧
      ((0 < (CompositeView.new ([VecTable.new, VecTable.new] : List (VecTable Nat))).views.length →
        (CompositeView.new ([VecTable.new, VecTable.new] : List (VecTable Nat))).vectorClockUpdateChecked 0 7
            = some ((CompositeView.new ([VecTable.new, VecTable.new] : List (VecTable Nat))).vectorClockUpdate 0 7) ∧
          ((CompositeView.new ([VecTable.new, VecTable.new] : List (VecTable Nat))).vectorClockUpdate 0 7).views
            = (CompositeView.new ([VecTable.new, VecTable.new] : List (VecTable Nat))).views ∧
          ((CompositeView.new ([VecTable.new, VecTable.new] : List (VecTable Nat))).vectorClockUpdate 0 7).vector_clock.getD 0 0 = 7 ∧
          ∀ j, j ≠ 0 →
            ((CompositeView.new ([VecTable.new, VecTable.new] : List (VecTable Nat))).vectorClockUpdate 0 7).vector_clock.getD j 0
              = (CompositeView.new ([VecTable.new, VecTable.new] : List (VecTable Nat))).vector_clock.getD j 0) ∧
        ((CompositeView.new ([VecTable.new, VecTable.new] : List (VecTable Nat))).views.length ≤ 0 →
          (CompositeView.new ([VecTable.new, VecTable.new] : List (VecTable Nat))).vectorClockUpdateChecked 0 7 = none)) :=
  ⟨by decide,
    vector_clock_update_bounds (CompositeView.new [VecTable.new, VecTable.new]) (by decide) 0 7⟩
